import Mathlib

/-!
Shallow embedding of the BSP-Auto bookmarklet builder (`build.js`, the
"clean final version"): the JSON-with-comments stripper, the metadata
loader, the bookmarklet URL encoder (IIFE detection, wrapping,
`encodeURI` with `#` escaping), the file-ordering rule, the timestamp
combination rule, and the HTML escaper.  Strings are modelled as
`List Char` (one element per Unicode scalar value), with `String`
wrappers at the boundary where convenient.
-/

namespace Build

/-- The character set matched by `\s` in a JavaScript regular expression,
which is also exactly the set stripped by `String.prototype.trim`
(ECMAScript WhiteSpace ∪ LineTerminator). -/
def isJsWs (c : Char) : Bool :=
  c = ' ' || c = '\t' || c = '\n' || c = '\r' || c = '\x0b' || c = '\x0c' ||
  c = '\u00A0' || c = '\u1680' || ('\u2000' ≤ c && c ≤ '\u200A') ||
  c = '\u2028' || c = '\u2029' || c = '\u202F' || c = '\u205F' ||
  c = '\u3000' || c = '\uFEFF'

/-- `str.replace(/^\uFEFF/, "")`: drop a single leading byte-order mark. -/
def stripBOM : List Char → List Char
  | [] => []
  | c :: t => if c = '\uFEFF' then t else c :: t

/-- `str.replace(/\r\n?/g, "\n")`: normalize CRLF and lone CR to LF. -/
def normalizeCRLF : List Char → List Char
  | [] => []
  | '\r' :: '\n' :: t => '\n' :: normalizeCRLF t
  | '\r' :: t => '\n' :: normalizeCRLF t
  | c :: t => c :: normalizeCRLF t

/-- `String.prototype.trim` (drops JS whitespace from both ends). -/
def jsTrim (l : List Char) : List Char :=
  ((l.dropWhile isJsWs).reverse.dropWhile isJsWs).reverse

/-- States of the `stripJsonComments` scanner: top level, just after a
`/` at top level, inside a `//` comment, inside a `/* */` comment
(tracking whether the previous character was `*`), inside a double-quoted
string (tracking whether the previous character was an unconsumed `\`). -/
inductive SJState
  | normal
  | slash
  | lineC
  | blockC (sawStar : Bool)
  | inStr (escaped : Bool)
deriving DecidableEq

/-- The `stripJsonComments` index loop of `build.js`, recast as a
character-at-a-time automaton.  Inside a string every character is
emitted verbatim (with an escaped quote not terminating the string);
outside, `//` comments are dropped up to (and emitting) the newline,
and `/* */` comments are dropped entirely. -/
def stripRun : List Char → SJState → List Char
  | [], .slash => ['/']
  | [], _ => []
  | c :: rest, .normal =>
    if c = '"' then c :: stripRun rest (.inStr false)
    else if c = '/' then stripRun rest .slash
    else c :: stripRun rest .normal
  | c :: rest, .slash =>
    if c = '/' then stripRun rest .lineC
    else if c = '*' then stripRun rest (.blockC false)
    else if c = '"' then '/' :: c :: stripRun rest (.inStr false)
    else '/' :: c :: stripRun rest .normal
  | c :: rest, .lineC =>
    if c = '\n' then '\n' :: stripRun rest .normal
    else stripRun rest .lineC
  | c :: rest, .blockC sawStar =>
    if sawStar && c = '/' then stripRun rest .normal
    else stripRun rest (.blockC (c = '*'))
  | c :: rest, .inStr escaped =>
    c :: (if escaped then stripRun rest (.inStr false)
          else if c = '\\' then stripRun rest (.inStr true)
          else if c = '"' then stripRun rest .normal
          else stripRun rest (.inStr false))

/-- `stripJsonComments` from `build.js`, starting at top level. -/
def stripJsonComments (l : List Char) : List Char :=
  stripRun l .normal


/-- ASCII lowering, the case folding a non-`u` JavaScript regex applies
to an ASCII pattern character. -/
def asciiToLower (c : Char) : Char :=
  if 'A' ≤ c && c ≤ 'Z' then Char.ofNat (c.toNat + 32) else c

/-- Case-insensitive match of one pattern character (`/i` flag). -/
def charEqCI (p c : Char) : Bool :=
  p = c || asciiToLower p = asciiToLower c

/-- Consume a literal pattern case-insensitively, returning the rest of
the input on success. -/
def eatCI : List Char → List Char → Option (List Char)
  | [], l => some l
  | _ :: _, [] => none
  | p :: ps, c :: cs => if charEqCI p c then eatCI ps cs else none

/-- Consume `\s*` (greedy, the following pattern atom in every use site
is a non-whitespace literal, so greediness is deterministic). -/
def eatWs (l : List Char) : List Char := l.dropWhile isJsWs

/-- `suf.isSuffixOf l`, by direct comparison of the tail. -/
def endsWithL (suf l : List Char) : Bool :=
  l.drop (l.length - suf.length) = suf

/-- The anchored tail `}\)\(\);?$` of the function-keyword IIFE
patterns: with the greedy `([\s\S]*)` capture before it, the input tail
must be the final `})();` or `})()`, and the capture is everything
before it. -/
def splitTail1 (l : List Char) : Option (List Char) :=
  if endsWithL "\x7D)();".data l then some (l.take (l.length - 5))
  else if endsWithL "\x7D)()".data l then some (l.take (l.length - 4))
  else none

/-- The anchored tail `}\)\s*\(\);?$` of the arrow IIFE patterns:
an optional final `;`, then `()`, then the maximal run of whitespace,
then the adjacent `})`; the capture is everything before it. -/
def splitTail2 (l : List Char) : Option (List Char) :=
  let l1 := if endsWithL ";".data l then l.take (l.length - 1) else l
  if endsWithL "()".data l1 then
    let l2 := (((l1.take (l1.length - 2)).reverse.dropWhile isJsWs)).reverse
    if endsWithL "\x7D)".data l2 then some (l2.take (l2.length - 2)) else none
  else none

/-- `/^\(function\s*\(\)\s*{([\s\S]*)}\)\(\);?$/i` -/
def matchIife1 (l : List Char) : Option (List Char) :=
  match eatCI "(function".data l with
  | none => none
  | some r1 =>
    match eatCI "()".data (eatWs r1) with
    | none => none
    | some r2 =>
      match eatCI "\x7B".data (eatWs r2) with
      | none => none
      | some r3 => splitTail1 r3

/-- `/^\(\s*async\s*function\s*\(\)\s*{([\s\S]*)}\)\(\);?$/i` -/
def matchIife2 (l : List Char) : Option (List Char) :=
  match eatCI "(".data l with
  | none => none
  | some r0 =>
    match eatCI "async".data (eatWs r0) with
    | none => none
    | some r1 =>
      match eatCI "function".data (eatWs r1) with
      | none => none
      | some r2 =>
        match eatCI "()".data (eatWs r2) with
        | none => none
        | some r3 =>
          match eatCI "\x7B".data (eatWs r3) with
          | none => none
          | some r4 => splitTail1 r4

/-- `/^\(\s*\(\s*\)\s*=>\s*{([\s\S]*)}\)\s*\(\);?$/i` -/
def matchIife3 (l : List Char) : Option (List Char) :=
  match eatCI "(".data l with
  | none => none
  | some r0 =>
    match eatCI "(".data (eatWs r0) with
    | none => none
    | some r1 =>
      match eatCI ")".data (eatWs r1) with
      | none => none
      | some r2 =>
        match eatCI "=>".data (eatWs r2) with
        | none => none
        | some r3 =>
          match eatCI "\x7B".data (eatWs r3) with
          | none => none
          | some r4 => splitTail2 r4

/-- `/^\(\s*async\s*\(\s*\)\s*=>\s*{([\s\S]*)}\)\s*\(\);?$/i` -/
def matchIife4 (l : List Char) : Option (List Char) :=
  match eatCI "(".data l with
  | none => none
  | some r0 =>
    match eatCI "async".data (eatWs r0) with
    | none => none
    | some r1 =>
      match eatCI "(".data (eatWs r1) with
      | none => none
      | some r2 =>
        match eatCI ")".data (eatWs r2) with
        | none => none
        | some r3 =>
          match eatCI "=>".data (eatWs r3) with
          | none => none
          | some r4 =>
            match eatCI "\x7B".data (eatWs r4) with
            | none => none
            | some r5 => splitTail2 r5

/-- Wrapper kinds recorded by `normalizeBookmarkletSource`. -/
inductive WrapperType
  | plain
  | async
  | noneW
deriving DecidableEq

/-- Result record of `normalizeBookmarkletSource`. -/
structure NormResult where
  code : List Char
  wrap : Bool
  wrapperType : WrapperType
deriving DecidableEq

/-- The `iifePatterns` loop: try the four patterns in order; on the
first match replace the code with the captured body and record the
wrapper kind. -/
def iifeUnwrap (cleaned : List Char) : List Char × WrapperType :=
  match matchIife1 cleaned with
  | some body => (body, .plain)
  | none =>
    match matchIife2 cleaned with
    | some body => (body, .async)
    | none =>
      match matchIife3 cleaned with
      | some body => (body, .plain)
      | none =>
        match matchIife4 cleaned with
        | some body => (body, .async)
        | none => (cleaned, .plain)

/-- `source.match(/^\s*javascript:\s*/i)` prefix stripping: if the
input is leading whitespace, then `javascript:` case-insensitively,
the matched part (with the trailing whitespace run) is sliced off. -/
def stripJsScheme (l : List Char) : List Char :=
  match eatCI "javascript:".data (l.dropWhile isJsWs) with
  | some rest => rest.dropWhile isJsWs
  | none => l

/-- `normalizeBookmarkletSource(source, wrap)` from `build.js`.
`source = none` models any non-string JavaScript value (the
`typeof source !== "string"` branch); `wrap` is the boolean the callers
pass (`wrap !== false` on a boolean is the boolean itself). -/
def normalizeBookmarkletSource (source : Option (List Char)) (wrap : Bool) : NormResult :=
  match source with
  | none => { code := [], wrap := wrap, wrapperType := if wrap then .plain else .noneW }
  | some s =>
    let cleaned := jsTrim (stripJsScheme (normalizeCRLF (stripBOM s)))
    if wrap then
      let (body, t) := iifeUnwrap cleaned
      { code := body, wrap := true, wrapperType := t }
    else
      { code := cleaned, wrap := false, wrapperType := .noneW }

/-- The set of characters `encodeURI` leaves unescaped: ASCII
alphanumerics, `encodeURI`'s reserved set, and the unreserved marks. -/
def isURIUnescaped (c : Char) : Bool :=
  ('A' ≤ c && c ≤ 'Z') || ('a' ≤ c && c ≤ 'z') || ('0' ≤ c && c ≤ '9') ||
  [';', ',', '/', '?', ':', '@', '&', '=', '+', '$', '-', '_', '.', '!',
   '~', '*', '\'', '(', ')', '#'].contains c

/-- Upper-case hexadecimal digit table. -/
def hexDigits : List Char :=
  ['0', '1', '2', '3', '4', '5', '6', '7', '8', '9', 'A', 'B', 'C', 'D', 'E', 'F']

/-- Upper-case hexadecimal digit of `n` (defined for `n < 16`). -/
def hexDigit (n : Nat) : Char := hexDigits.getD n '0'

/-- UTF-8 bytes of one Unicode scalar value (as `encodeURI` encodes it). -/
def utf8Bytes (c : Char) : List Nat :=
  let n := c.toNat
  if n < 0x80 then [n]
  else if n < 0x800 then [0xC0 + n / 0x40, 0x80 + n % 0x40]
  else if n < 0x10000 then
    [0xE0 + n / 0x1000, 0x80 + n / 0x40 % 0x40, 0x80 + n % 0x40]
  else
    [0xF0 + n / 0x40000, 0x80 + n / 0x1000 % 0x40, 0x80 + n / 0x40 % 0x40,
     0x80 + n % 0x40]

/-- `%XX` percent escape of one byte. -/
def pctEncode (b : Nat) : List Char := ['%', hexDigit (b / 16), hexDigit (b % 16)]

/-- `encodeURI` on one character. -/
def encodeURIChar (c : Char) : List Char :=
  if isURIUnescaped c then [c] else (utf8Bytes c).map pctEncode |>.flatten

/-- `encodeURI` on a string. -/
def encodeURIL (l : List Char) : List Char := l.map encodeURIChar |>.flatten

/-- `str.replace(/c/g, rep)` for a single-character pattern. -/
def replaceAllChar (c : Char) (rep : List Char) : List Char → List Char
  | [] => []
  | x :: t => if x = c then rep ++ replaceAllChar c rep t else x :: replaceAllChar c rep t

/-- The final (pre-encoding) bookmarklet code of `toBookmarkletURL`:
re-wrap the normalized body per the recorded wrapper kind. -/
def bookmarkletFinalCode (source : Option (List Char)) (wrap : Bool) : List Char :=
  let n := normalizeBookmarkletSource source wrap
  if n.wrap then
    if n.wrapperType = .async then
      "(async function()\x7B".data ++ n.code ++ "\x7D)();".data
    else
      "(function()\x7B".data ++ n.code ++ "\x7D)();".data
  else
    n.code

/-- `toBookmarkletURL(source, wrap)` from `build.js`:
`"javascript:" + encodeURI(finalCode).replace(/#/g, "%23")`. -/
def toBookmarkletURL (source : Option (List Char)) (wrap : Bool) : List Char :=
  "javascript:".data ++ replaceAllChar '#' "%23".data (encodeURIL (bookmarkletFinalCode source wrap))

/-- Value of a hexadecimal digit character. -/
def hexVal (c : Char) : Nat :=
  if '0' ≤ c && c ≤ '9' then c.toNat - 48
  else if 'A' ≤ c && c ≤ 'F' then c.toNat - 55
  else if 'a' ≤ c && c ≤ 'f' then c.toNat - 87
  else 0

/-- Percent-decoding of an ASCII-only percent-encoded string (the
inverse of `encodeURIL` on ASCII input), used to state the decode
round-trip examples. -/
def percentDecode : List Char → List Char
  | '%' :: h1 :: h2 :: t => Char.ofNat (16 * hexVal h1 + hexVal h2) :: percentDecode t
  | c :: t => c :: percentDecode t
  | [] => []



/-- JSON values as produced by `JSON.parse`. -/
inductive JValue
  | null
  | bool (b : Bool)
  | num (n : Int)
  | str (s : String)
  | arr (xs : List JValue)
  | obj (kvs : List (String × JValue))

/-- JavaScript falsiness of a parsed JSON value (`null`, `false`, `0`,
`""`). -/
def jsFalsy : JValue → Bool
  | .null => true
  | .bool b => !b
  | .num n => n = 0
  | .str s => s = ""
  | _ => false

/-- `v === null` for a parsed JSON value. -/
def jsIsNull : JValue → Bool
  | .null => true
  | _ => false

/-- `typeof v === "object"` for a parsed JSON value (objects, arrays and
`null`). -/
def jsTypeofObject : JValue → Bool
  | .obj _ => true
  | .arr _ => true
  | .null => true
  | _ => false

/-- A canonical array-index property name: a non-empty digit string
with no superfluous leading zero (`"0"`, `"1"`, `"42"`, but not `"02"`
or `"1.js"`). -/
def parseIndex (key : String) : Option Nat :=
  if !key.data.isEmpty && key.data.all (fun c => '0' ≤ c && c ≤ '9') &&
      (key.data = ['0'] || key.data.head? ≠ some '0') then
    some (key.data.foldl (fun n c => 10 * n + (c.toNat - 48)) 0)
  else none

/-- Property access `v[key]` on a parsed JSON value (`none` models
`undefined`).  Objects produced by `JSON.parse` have unique keys
(later duplicates overwrite earlier ones), so plain association lookup
is used; arrays answer only canonical numeric indices. -/
def getField (v : JValue) (key : String) : Option JValue :=
  match v with
  | .obj kvs => kvs.lookup key
  | .arr xs =>
    match parseIndex key with
    | some i => xs.get? i
    | none => none
  | _ => none

/-- `readJsonFile` from `build.js`.  The filesystem and `JSON.parse` are
external: `fileExists` says whether the file is present, `raw` is its
text, and `parse` is the parser (`none` models a thrown `SyntaxError`,
which the `try/catch` turns into `null`).  The file text is
BOM-stripped, CRLF-normalized, comment-stripped and trimmed before
parsing; an empty cleaned text short-circuits to `null`. -/
def readJsonFile (fileExists : Bool) (raw : List Char)
    (parse : List Char → Option JValue) : Option JValue :=
  if fileExists then
    let cleaned := jsTrim (stripJsonComments (normalizeCRLF (stripBOM raw)))
    if cleaned = [] then none else parse cleaned
  else none

/-- The metadata record built by `readMeta`. -/
structure Meta where
  version : String
  order : List JValue
  items : JValue

/-- Default metadata (absent/empty/malformed document). -/
def defaultMeta : Meta := { version := "", order := [], items := .obj [] }

/-- `readJsonFile(metaFile) || {}`: replace a missing or falsy parse
result by an empty object. -/
def metaCoalesce (j : Option JValue) : JValue :=
  match j with
  | some v => if jsFalsy v then JValue.obj [] else v
  | none => JValue.obj []

/-- `readMeta` from `build.js`, applied to the value `readJsonFile`
returned (`meta = readJsonFile(metaFile) || {}` followed by the shape
checks on `version`, `order` and `items`). -/
def readMeta (j : Option JValue) : Meta :=
  let meta := metaCoalesce j
  { version := match getField meta "version" with
      | some (.str s) => String.mk (jsTrim s.data)
      | _ => ""
    order := match getField meta "order" with
      | some (.arr xs) => xs
      | _ => []
    items := match getField meta "items" with
      | some v => if jsTypeofObject v && !jsIsNull v then v else .obj []
      | _ => .obj [] }

/-- `meta.items[file]` as used by the `entries` loop. -/
def itemLookup (items : JValue) (file : String) : Option JValue :=
  getField items file

/-- The eligibility filter of `listJs`: keep names ending in `.js` and
not starting with `_`, in the order the directory enumeration returned
them. -/
def listJs (names : List String) : List String :=
  names.filter (fun f => f.endsWith ".js" && !f.startsWith "_")

/-- The `ordered` computation of `build.js`: names listed in
`meta.order` that are present among the discovered files, in listed
order, followed by the remaining discovered files in discovery order. -/
def orderedFiles (order allFiles : List String) : List String :=
  order.filter (fun f => allFiles.contains f) ++
    allFiles.filter (fun f => !order.contains f)

/-- Lexicographic order on code points (the locale-independent default
string comparison). -/
def strLe (a b : List Char) : Bool :=
  match a, b with
  | [], _ => true
  | _ :: _, [] => false
  | x :: xs, y :: ys =>
    if x.toNat < y.toNat then true
    else if y.toNat < x.toNat then false
    else strLe xs ys

/-- Insertion sort by `strLe`. -/
def insertSorted (x : String) : List String → List String
  | [] => [x]
  | y :: t => if strLe x.data y.data then x :: y :: t else y :: insertSorted x t

/-- Alphabetical sort, locale-independent. -/
def sortStrings : List String → List String
  | [] => []
  | x :: t => insertSorted x (sortStrings t)

/-- Modelled from the spec: the ordering §4.2/§3 describe, with the
remaining files sorted "alphabetically by default locale-independent
comparison" instead of left in discovery order.  Used only to compare
the code's `orderedFiles` against the spec's words. -/
def orderedFilesSpecAlpha (order allFiles : List String) : List String :=
  order.filter (fun f => allFiles.contains f) ++
    sortStrings (allFiles.filter (fun f => !order.contains f))

/-- `latestTimestampISO` from `build.js`.  A candidate is `none` when it
is `null` or fails to parse as a date; `some t` models a valid ISO
string denoting instant `t` (epoch milliseconds).  The loop keeps the
first candidate strictly later than all before it. -/
def latestTimestampISO (candidates : List (Option Int)) : Option Int :=
  candidates.foldl
    (fun latest c =>
      match c with
      | none => latest
      | some t =>
        match latest with
        | none => some t
        | some l => if t > l then some t else latest)
    none

/-- The per-entry timestamp combination of the `entries` loop:
`combinedMtime = latestTimestampISO([scriptMtime, metaLastChange])`,
then `mtime = combinedMtime || scriptMtime`.  `metaLastChange` is
`some …` exactly when the metadata file exists (`getLastChangeISO`
always yields a valid instant). -/
def entryMtime (scriptMtime : Int) (metaLastChange : Option Int) : Int :=
  (latestTimestampISO [some scriptMtime, metaLastChange]).getD scriptMtime

/-- Modelled from the spec: the combination rule of §4.4 as the claim
reads it — `max` only when the metadata file exists AND contributed
configuration to the entry, the script's own timestamp alone
otherwise. -/
def claimEntryMtime (scriptMtime metaTime : Int)
    (metaFileExists contributed : Bool) : Int :=
  if metaFileExists && contributed then max scriptMtime metaTime else scriptMtime

/-- The per-entry mtime as `build.js` computes it, as a function of the
same observables the spec's rule mentions (the code ignores
`contributed`). -/
def codeEntryMtime (scriptMtime metaTime : Int)
    (metaFileExists : Bool) (_contributed : Bool) : Int :=
  entryMtime scriptMtime (if metaFileExists then some metaTime else none)

/-- `escapeHtml` from `build.js`: five sequential global replacements,
`&` first. -/
def escapeHtml (l : List Char) : List Char :=
  replaceAllChar '\'' "&#039;".data
    (replaceAllChar '"' "&quot;".data
      (replaceAllChar '>' "&gt;".data
        (replaceAllChar '<' "&lt;".data
          (replaceAllChar '&' "&amp;".data l))))

/-- Per-character entity mapping that `escapeHtml` amounts to. -/
def escChar (c : Char) : List Char :=
  if c = '&' then "&amp;".data
  else if c = '<' then "&lt;".data
  else if c = '>' then "&gt;".data
  else if c = '"' then "&quot;".data
  else if c = '\'' then "&#039;".data
  else [c]

/-- HTML entity decoding for the five entities `escapeHtml` emits,
used to state that escaping loses no information and never
double-escapes. -/
def decodeEntities (l : List Char) : List Char :=
  match l with
  | [] => []
  | c :: t =>
    if c = '&' then
      match t with
      | x1 :: x2 :: x3 :: t3 =>
        if [x1, x2, x3] = "lt;".data then '<' :: decodeEntities t3
        else if [x1, x2, x3] = "gt;".data then '>' :: decodeEntities t3
        else
          match t3 with
          | x4 :: t4 =>
            if [x1, x2, x3, x4] = "amp;".data then '&' :: decodeEntities t4
            else
              match t4 with
              | x5 :: t5 =>
                if [x1, x2, x3, x4, x5] = "quot;".data then '"' :: decodeEntities t5
                else if [x1, x2, x3, x4, x5] = "#039;".data then '\'' :: decodeEntities t5
                else c :: decodeEntities (x1 :: x2 :: x3 :: x4 :: x5 :: t5)
              | [] => c :: decodeEntities [x1, x2, x3, x4]
          | [] => c :: decodeEntities [x1, x2, x3]
      | short => c :: decodeEntities short
    else c :: decodeEntities t
termination_by l.length
decreasing_by all_goals simp <;> omega


/-- Characters that can appear in the consumed (non-body) part of the
four IIFE patterns. -/
def iifePatChars : List Char := "(functionasy=>)\x7B\x7D;".data

end Build

namespace Build

/-- A `//` comment with no newline swallows the rest of the input. -/
theorem stripRun_lineC_no_nl {s : List Char} (h : '\n' ∉ s) :
    stripRun s .lineC = [] := by
  induction s with
  | nil => rfl
  | cons c t ih =>
    have hc : c ≠ '\n' := fun hcc => h (hcc ▸ List.mem_cons_self _ _)
    simp only [stripRun, if_neg hc]
    exact ih (fun hm => h (List.mem_cons_of_mem _ hm))

/-- A `//` comment ends at the first newline, which is re-emitted. -/
theorem stripRun_lineC_nl {s : List Char} (t : List Char) (h : '\n' ∉ s) :
    stripRun (s ++ '\n' :: t) .lineC = '\n' :: stripRun t .normal := by
  induction s with
  | nil => simp [stripRun]
  | cons c s ih =>
    have hc : c ≠ '\n' := fun hcc => h (hcc ▸ List.mem_cons_self _ _)
    simp only [List.cons_append, stripRun, if_neg hc]
    exact ih (fun hm => h (List.mem_cons_of_mem _ hm))

/-- Characters of the body of a `/* */` comment that contains no `*/`
terminator are all skipped, up to and including the terminator. -/
theorem stripRun_blockC {s : List Char} (t : List Char) (st : Bool)
    (h : ¬ List.IsInfix ['*', '/'] s)
    (hst : st = true → ∀ s', s ≠ '/' :: s') :
    stripRun (s ++ '*' :: '/' :: t) (.blockC st) = stripRun t .normal := by
  induction s generalizing st with
  | nil =>
    simp only [List.nil_append, stripRun]
    have h1 : (st && ('*' = '/' : Bool)) = false := by simp
    rw [h1]
    simp [stripRun]
  | cons c s ih =>
    simp only [List.cons_append, stripRun]
    have hcs : (st && (c = '/' : Bool)) = false := by
      cases st with
      | false => simp
      | true =>
        have hc : c ≠ '/' := fun hcc => hst rfl s (by rw [hcc])
        simp [hc]
    rw [hcs]
    simp only [Bool.false_eq_true, if_false]
    apply ih
    · exact fun hinf => h (hinf.trans (List.infix_cons (List.infix_refl _)))
    · intro hcstar s' hs'
      apply h
      subst hs'
      rw [show c :: '/' :: s' = ['*', '/'] ++ s' from by
        simp at hcstar
        simp [hcstar]]
      exact ⟨[], s', by simp⟩

/-- Inside a double-quoted string every character is copied verbatim up
to the closing quote. -/
theorem stripRun_inStr {s : List Char} (t : List Char)
    (hq : '"' ∉ s) (hb : '\\' ∉ s) :
    stripRun (s ++ '"' :: t) (.inStr false) = s ++ '"' :: stripRun t .normal := by
  induction s with
  | nil => simp [stripRun]
  | cons c s ih =>
    have hc1 : c ≠ '\\' := fun hcc => hb (hcc ▸ List.mem_cons_self _ _)
    have hc2 : c ≠ '"' := fun hcc => hq (hcc ▸ List.mem_cons_self _ _)
    simp only [List.cons_append, stripRun, if_neg hc1, if_neg hc2,
      Bool.false_eq_true, if_false, List.append_eq]
    rw [ih (fun hm => hq (List.mem_cons_of_mem _ hm))
        (fun hm => hb (List.mem_cons_of_mem _ hm))]

end Build

namespace Build

/-- C3: `stripJsonComments` removes `//` line comments (up to the
newline, which is kept, or to the end of input) and `/* */` block
comments occurring outside string literals, and preserves
character-for-character the contents of double-quoted strings — even
contents that look like comments — tracking escaped quotes so `\"`
does not end the string. -/
theorem stripJsonComments_spec :
    (∀ s : List Char, '\n' ∉ s → stripJsonComments ('/' :: '/' :: s) = []) ∧
    (∀ s t : List Char, '\n' ∉ s →
      stripJsonComments ('/' :: '/' :: (s ++ '\n' :: t)) = '\n' :: stripJsonComments t) ∧
    (∀ s t : List Char, ¬ List.IsInfix ['*', '/'] s →
      stripJsonComments ('/' :: '*' :: (s ++ '*' :: '/' :: t)) = stripJsonComments t) ∧
    (∀ s t : List Char, '"' ∉ s → '\\' ∉ s →
      stripJsonComments ('"' :: (s ++ '"' :: t)) =
        '"' :: (s ++ '"' :: stripJsonComments t)) ∧
    (∀ s t : List Char, '"' ∉ s → '\\' ∉ s →
      stripJsonComments ('"' :: '\\' :: '"' :: (s ++ '"' :: t)) =
        '"' :: '\\' :: '"' :: (s ++ '"' :: stripJsonComments t)) := by
  refine ⟨?_, ?_, ?_, ?_, ?_⟩
  · intro s h
    exact stripRun_lineC_no_nl h
  · intro s t h
    exact stripRun_lineC_nl t h
  · intro s t h
    exact stripRun_blockC t false h (by simp)
  · intro s t hq hb
    show '"' :: stripRun (s ++ '"' :: t) (.inStr false) = _
    rw [stripRun_inStr t hq hb]; rfl
  · intro s t hq hb
    show '"' :: '\\' :: '"' :: stripRun (s ++ '"' :: t) (.inStr false) = _
    rw [stripRun_inStr t hq hb]; rfl

/-- Instance of `stripJsonComments_spec` at concrete inputs: a line
comment, a block comment, a protected `//` inside a string, and a
string with an escaped quote before a `//`. -/
theorem stripJsonComments_spec_witness :
    stripJsonComments "//x".data = [] ∧
    stripJsonComments "// c\n\x7B\x7D".data = "\n\x7B\x7D".data ∧
    stripJsonComments "/* c */x".data = "x".data ∧
    stripJsonComments "\"http://x\"y".data = "\"http://x\"y".data ∧
    stripJsonComments "\"\\\"//\"z".data = "\"\\\"//\"z".data := by
  refine ⟨?_, ?_, ?_, ?_, ?_⟩
  · exact stripJsonComments_spec.1 "x".data (by decide)
  · exact stripJsonComments_spec.2.1 " c".data "\x7B\x7D".data (by decide)
  · have h := stripJsonComments_spec.2.2.1 " c ".data "x".data
      (by intro hinf; rcases hinf with ⟨a, b, hab⟩
          have : a ++ ['*', '/'] ++ b = [' ', 'c', ' '] := hab
          rcases a with _ | ⟨x, _ | ⟨y, _ | _⟩⟩ <;> simp_all)
    exact h
  · exact stripJsonComments_spec.2.2.2.1 "http://x".data "y".data (by decide) (by decide)
  · exact stripJsonComments_spec.2.2.2.2 "//".data "z".data (by decide) (by decide)

end Build

namespace Build

theorem replaceAllChar_append (c : Char) (rep a b : List Char) :
    replaceAllChar c rep (a ++ b) =
      replaceAllChar c rep a ++ replaceAllChar c rep b := by
  induction a with
  | nil => rfl
  | cons x t ih =>
    simp only [List.cons_append, replaceAllChar]
    by_cases hx : x = c
    · simp [hx, ih]
    · simp [hx, ih]

theorem replaceAllChar_of_not_mem {c : Char} {l : List Char} (rep : List Char)
    (h : c ∉ l) : replaceAllChar c rep l = l := by
  induction l with
  | nil => rfl
  | cons x t ih =>
    have hx : x ≠ c := fun hxc => h (hxc ▸ List.mem_cons_self _ _)
    simp only [replaceAllChar, if_neg hx]
    rw [ih (fun hm => h (List.mem_cons_of_mem _ hm))]

theorem mem_replaceAllChar {x c : Char} {rep l : List Char}
    (h : x ∈ replaceAllChar c rep l) : x ∈ rep ∨ (x ∈ l ∧ x ≠ c) := by
  induction l with
  | nil => simp [replaceAllChar] at h
  | cons y t ih =>
    simp only [replaceAllChar] at h
    by_cases hy : y = c
    · rw [if_pos hy] at h
      rcases List.mem_append.1 h with h1 | h2
      · exact Or.inl h1
      · rcases ih h2 with h3 | ⟨h4, h5⟩
        · exact Or.inl h3
        · exact Or.inr ⟨List.mem_cons_of_mem _ h4, h5⟩
    · rw [if_neg hy] at h
      rcases List.mem_cons.1 h with h1 | h2
      · exact Or.inr ⟨h1 ▸ List.mem_cons_self _ _, h1 ▸ hy⟩
      · rcases ih h2 with h3 | ⟨h4, h5⟩
        · exact Or.inl h3
        · exact Or.inr ⟨List.mem_cons_of_mem _ h4, h5⟩

theorem escapeHtml_append (a b : List Char) :
    escapeHtml (a ++ b) = escapeHtml a ++ escapeHtml b := by
  simp [escapeHtml, replaceAllChar_append]

theorem escapeHtml_singleton (c : Char) : escapeHtml [c] = escChar c := by
  by_cases h1 : c = '&'
  · subst h1; decide
  by_cases h2 : c = '<'
  · subst h2; decide
  by_cases h3 : c = '>'
  · subst h3; decide
  by_cases h4 : c = '"'
  · subst h4; decide
  by_cases h5 : c = '\''
  · subst h5; decide
  simp [escapeHtml, escChar, replaceAllChar, h1, h2, h3, h4, h5]

theorem escapeHtml_cons (c : Char) (t : List Char) :
    escapeHtml (c :: t) = escChar c ++ escapeHtml t := by
  rw [show c :: t = [c] ++ t from rfl, escapeHtml_append, escapeHtml_singleton]

theorem decodeEntities_cons_of_ne {c : Char} (t : List Char) (h : c ≠ '&') :
    decodeEntities (c :: t) = c :: decodeEntities t := by
  rw [decodeEntities.eq_def]
  simp [h]

/-- Decoding inverts the per-character escape. -/
theorem decodeEntities_escChar (c : Char) (t : List Char) :
    decodeEntities (escChar c ++ t) = c :: decodeEntities t := by
  by_cases h1 : c = '&'
  · subst h1; rw [decodeEntities.eq_def]; rfl
  by_cases h2 : c = '<'
  · subst h2; rw [decodeEntities.eq_def]; rfl
  by_cases h3 : c = '>'
  · subst h3; rw [decodeEntities.eq_def]; rfl
  by_cases h4 : c = '"'
  · subst h4; rw [decodeEntities.eq_def]; rfl
  by_cases h5 : c = '\''
  · subst h5; rw [decodeEntities.eq_def]; rfl
  rw [show escChar c = [c] from by simp [escChar, h1, h2, h3, h4, h5]]
  exact decodeEntities_cons_of_ne t h1

/-- Escaping then decoding is the identity. -/
theorem decodeEntities_nil : decodeEntities [] = [] := by
  rw [decodeEntities.eq_def]

/-- Escaping then decoding is the identity. -/
theorem decodeEntities_escapeHtml (l : List Char) :
    decodeEntities (escapeHtml l) = l := by
  induction l with
  | nil => rw [show escapeHtml ([] : List Char) = [] from rfl, decodeEntities_nil]
  | cons c t ih => rw [escapeHtml_cons, decodeEntities_escChar, ih]

/-- Every character of an `escChar` unit is harmless in HTML text and
double-quoted attribute positions. -/
theorem mem_escChar {x c : Char} (h : x ∈ escChar c) :
    x ≠ '<' ∧ x ≠ '>' ∧ x ≠ '"' ∧ x ≠ '\'' := by
  by_cases h1 : c = '&'
  · subst h1; simp_all [escChar]; rcases h with h | h | h | h | h <;> simp [h]
  by_cases h2 : c = '<'
  · subst h2; simp_all [escChar]; rcases h with h | h | h | h <;> simp [h]
  by_cases h3 : c = '>'
  · subst h3; simp_all [escChar]; rcases h with h | h | h | h <;> simp [h]
  by_cases h4 : c = '"'
  · subst h4; simp_all [escChar]; rcases h with h | h | h | h | h | h <;> simp [h]
  by_cases h5 : c = '\''
  · subst h5; simp_all [escChar]; rcases h with h | h | h | h | h | h <;> simp [h]
  rw [show escChar c = [c] from by simp [escChar, h1, h2, h3, h4, h5]] at h
  rcases List.mem_singleton.1 h with rfl
  exact ⟨h2, h3, h4, h5⟩

end Build

namespace Build

/-- C9: `escapeHtml` (applied by `cardsHtml` to every user-controlled
name, description and bookmark label) replaces all five of `&`, `<`,
`>`, `"`, `'` by their HTML entities; because `&` is replaced first, no
entity is double-escaped — decoding recovers the input exactly — and no
character of the output is a raw `<`, `>`, quote or apostrophe, so a
`<script>` display name can never appear as live markup. -/
theorem escapeHtml_spec :
    (∀ l : List Char, decodeEntities (escapeHtml l) = l) ∧
    (∀ (l : List Char) (c : Char), c ∈ escapeHtml l →
      c ≠ '<' ∧ c ≠ '>' ∧ c ≠ '"' ∧ c ≠ '\'') ∧
    escapeHtml "<script>".data = "&lt;script&gt;".data := by
  refine ⟨decodeEntities_escapeHtml, ?_, by decide⟩
  intro l c hmem
  induction l with
  | nil => simp [escapeHtml, replaceAllChar] at hmem
  | cons d t ih =>
    rw [escapeHtml_cons] at hmem
    rcases List.mem_append.1 hmem with h | h
    · exact mem_escChar h
    · exact ih h

/-- Instance of `escapeHtml_spec` at a concrete input: the character
`s` occurring in the escaped form of `<script>` is not a special
character. -/
theorem escapeHtml_spec_witness :
    's' ∈ escapeHtml "<script>".data ∧
      ('s' ≠ '<' ∧ 's' ≠ '>' ∧ 's' ≠ '"' ∧ 's' ≠ '\'') :=
  ⟨by decide, escapeHtml_spec.2.1 "<script>".data 's' (by decide)⟩

end Build

namespace Build

/-- C4 (counterexample): with discovery order `["b.js", "a.js"]` (the
directory enumeration is not sorted by the code) and an empty `order`
list, the produced sequence is the discovery order, not the
alphabetical order the claim requires. -/
theorem orderedFiles_not_alphabetical :
    orderedFiles [] ["b.js", "a.js"] ≠ orderedFilesSpecAlpha [] ["b.js", "a.js"] := by
  decide

/-- C4 (amended): the entry sequence is the `order` names present among
the discovered files, in listed order, followed by the remaining
discovered files in the order the directory enumeration returned them
(alphabetical only if that enumeration is); names in `order` absent
from disk are skipped, every discovered file appears, and (for
duplicate-free `order` and discovery lists) no filename appears twice. -/
theorem orderedFiles_spec :
    (∀ order files : List String,
      List.IsPrefix (order.filter (fun f => files.contains f)) (orderedFiles order files)) ∧
    (∀ order files : List String,
      (files.filter (fun f => !order.contains f)).Sublist files ∧
        List.IsSuffix (files.filter (fun f => !order.contains f)) (orderedFiles order files)) ∧
    (∀ (order files : List String) (x : String),
      x ∈ orderedFiles order files ↔ x ∈ files) ∧
    (∀ order files : List String, order.Nodup → files.Nodup →
      (orderedFiles order files).Nodup) ∧
    orderedFiles ["b.js", "a.js"] ["a.js", "b.js", "c.js"] = ["b.js", "a.js", "c.js"] := by
  refine ⟨?_, ?_, ?_, ?_, by decide⟩
  · intro order files
    exact ⟨files.filter (fun f => !order.contains f), rfl⟩
  · intro order files
    exact ⟨List.filter_sublist _, order.filter (fun f => files.contains f), rfl⟩
  · intro order files x
    constructor
    · intro hx
      rcases List.mem_append.1 hx with h | h
      · have := List.of_mem_filter h
        simpa [List.elem_iff] using this
      · exact List.mem_of_mem_filter h
    · intro hx
      by_cases ho : x ∈ order
      · exact List.mem_append.2 (Or.inl (List.mem_filter.2
          ⟨ho, by simpa [List.elem_iff] using hx⟩))
      · exact List.mem_append.2 (Or.inr (List.mem_filter.2
          ⟨hx, by simpa [List.elem_iff] using ho⟩))
  · intro order files ho hf
    apply List.Nodup.append
    · exact ho.filter _
    · exact hf.filter _
    · intro x hx1 hx2
      have h1 : x ∈ order := List.mem_of_mem_filter hx1
      have h2 := List.of_mem_filter hx2
      simp [List.elem_iff] at h2
      exact h2 h1

/-- Instance of `orderedFiles_spec` at a concrete input with duplicate
hypotheses discharged. -/
theorem orderedFiles_spec_witness :
    (["b.js", "a.js"] : List String).Nodup ∧
      (["a.js", "b.js", "c.js"] : List String).Nodup ∧
      (orderedFiles ["b.js", "a.js"] ["a.js", "b.js", "c.js"]).Nodup :=
  ⟨by decide, by decide,
    orderedFiles_spec.2.2.2.1 ["b.js", "a.js"] ["a.js", "b.js", "c.js"]
      (by decide) (by decide)⟩

/-- C5 (counterexample): the code combines with the metadata file's
timestamp whenever the file exists, even when the metadata contributed
no configuration to the entry; the claim requires the script's own
timestamp in that case. -/
theorem entryMtime_ignores_contribution :
    codeEntryMtime 0 5 true false ≠ claimEntryMtime 0 5 true false := by
  decide

/-- C5 (amended): the resolved last-change instant is
`max(scriptOwnTimestamp, metadataDocumentTimestamp)` whenever the
metadata file exists — whether or not it contributed configuration to
the entry — and the script's own timestamp alone when it does not
exist. -/
theorem entryMtime_spec :
    (∀ (s m : Int) (contributed : Bool),
      codeEntryMtime s m true contributed = max s m) ∧
    (∀ (s m : Int) (contributed : Bool),
      codeEntryMtime s m false contributed = s) := by
  constructor
  · intro s m _
    simp only [codeEntryMtime, entryMtime, latestTimestampISO, List.foldl, if_pos, Option.getD]
    by_cases h : m > s
    · simp [if_pos h, max_def]
      omega
    · simp [if_neg h, max_def]
      omega
  · intro s m _
    simp [codeEntryMtime, entryMtime, latestTimestampISO]

/-- Instance of `entryMtime_spec` at a concrete input. -/
theorem entryMtime_spec_witness :
    codeEntryMtime 3 7 true false = max 3 7 :=
  entryMtime_spec.1 3 7 false

/-- C7 (counterexample): on a non-string source with wrap requested
the encoder's output is not the literal `javascript:(function(){})();`
— `encodeURI` percent-encodes the braces. -/
theorem toBookmarkletURL_nonstring_not_literal :
    toBookmarkletURL none true ≠ "javascript:(function()\x7B\x7D)();".data := by
  decide

/-- C7 (amended): for any non-string source value and either wrap
preference the encoder is total (never throws); with wrap requested it
returns `javascript:(function()%7B%7D)();`, whose percent-decoding is
the empty-body wrapper `(function(){})();`, and with wrap disabled it
returns `javascript:` with an empty body. -/
theorem toBookmarkletURL_nonstring_spec :
    toBookmarkletURL none true = "javascript:(function()%7B%7D)();".data ∧
    percentDecode "(function()%7B%7D)();".data = "(function()\x7B\x7D)();".data ∧
    toBookmarkletURL none false = "javascript:".data := by
  refine ⟨by decide, by decide, by decide⟩

end Build

namespace Build

/-- C6: the metadata loader falls back to the defaults — empty order,
empty items — whenever the document is absent, cleans to the empty
string, or fails to parse, and it never raises (all functions are
total); a parsed value whose `order` is not an array contributes an
empty order, and one whose `items` is not an object contributes an
items value on which every filename lookup misses. -/
theorem readMeta_spec :
    (∀ (raw : List Char) (parse : List Char → Option JValue),
      readJsonFile false raw parse = none) ∧
    (∀ (e : Bool) (raw : List Char) (parse : List Char → Option JValue),
      readJsonFile e raw parse = none ↔
        (e = false ∨
          jsTrim (stripJsonComments (normalizeCRLF (stripBOM raw))) = [] ∨
          parse (jsTrim (stripJsonComments (normalizeCRLF (stripBOM raw)))) = none)) ∧
    readMeta none = defaultMeta ∧
    (∀ j : Option JValue,
      (∀ xs, getField (metaCoalesce j) "order" ≠ some (.arr xs)) →
      (readMeta j).order = []) ∧
    (∀ j : Option JValue,
      (∀ kvs, getField (metaCoalesce j) "items" ≠ some (.obj kvs)) →
      ∀ k : String, parseIndex k = none → itemLookup (readMeta j).items k = none) := by
  refine ⟨?_, ?_, rfl, ?_, ?_⟩
  · intro raw parse
    simp [readJsonFile]
  · intro e raw parse
    cases e with
    | false => simp [readJsonFile]
    | true =>
      simp only [readJsonFile, if_true, Bool.true_eq_false, false_or]
      by_cases hc : jsTrim (stripJsonComments (normalizeCRLF (stripBOM raw))) = []
      · simp [hc]
      · simp [hc]
  · intro j ho
    cases hgf : getField (metaCoalesce j) "order" with
    | none => simp [readMeta, hgf]
    | some v =>
      cases v with
      | arr xs => exact absurd hgf (ho xs)
      | null => simp [readMeta, hgf]
      | bool b => simp [readMeta, hgf]
      | num n => simp [readMeta, hgf]
      | str s => simp [readMeta, hgf]
      | obj kvs => simp [readMeta, hgf]
  · intro j hi k hk
    cases hgf : getField (metaCoalesce j) "items" with
    | none =>
      have hitems : (readMeta j).items = JValue.obj [] := by
        simp only [readMeta]
        rw [hgf]
      rw [itemLookup, hitems]
      rfl
    | some v =>
      cases v with
      | obj kvs => exact absurd hgf (hi kvs)
      | arr xs =>
        have hitems : (readMeta j).items = JValue.arr xs := by
          simp only [readMeta]
          rw [hgf]
          simp [jsTypeofObject, jsIsNull]
        rw [itemLookup, hitems]
        simp [getField, hk]
      | null =>
        have hitems : (readMeta j).items = JValue.obj [] := by
          simp only [readMeta]
          rw [hgf]
          simp [jsTypeofObject, jsIsNull]
        rw [itemLookup, hitems]
        rfl
      | bool b =>
        have hitems : (readMeta j).items = JValue.obj [] := by
          simp only [readMeta]
          rw [hgf]
          simp [jsTypeofObject]
        rw [itemLookup, hitems]
        rfl
      | num n =>
        have hitems : (readMeta j).items = JValue.obj [] := by
          simp only [readMeta]
          rw [hgf]
          simp [jsTypeofObject]
        rw [itemLookup, hitems]
        rfl
      | str s =>
        have hitems : (readMeta j).items = JValue.obj [] := by
          simp only [readMeta]
          rw [hgf]
          simp [jsTypeofObject]
        rw [itemLookup, hitems]
        rfl

/-- Instance of `readMeta_spec` at a concrete parsed document whose
`order` is a number and whose `items` is an array. -/
theorem readMeta_spec_witness :
    (readMeta (some (.obj [("order", .num 1), ("items", .arr [.str "x"])]))).order = [] ∧
      itemLookup
        (readMeta (some (.obj [("order", .num 1), ("items", .arr [.str "x"])]))).items
        "a.js" = none := by
  constructor
  · exact readMeta_spec.2.2.2.1 (some (.obj [("order", .num 1), ("items", .arr [.str "x"])]))
      (fun xs h => JValue.noConfusion (Option.some.inj h))
  · exact readMeta_spec.2.2.2.2 (some (.obj [("order", .num 1), ("items", .arr [.str "x"])]))
      (fun kvs h => JValue.noConfusion (Option.some.inj h)) "a.js" (by decide)

end Build

namespace Build

theorem normalizeCRLF_eq_self {l : List Char} (h : '\r' ∉ l) :
    normalizeCRLF l = l := by
  induction l with
  | nil => rfl
  | cons c t ih =>
    have hc : c ≠ '\r' := fun hcc => h (hcc ▸ List.mem_cons_self _ _)
    have ht : '\r' ∉ t := fun hm => h (List.mem_cons_of_mem _ hm)
    rw [normalizeCRLF.eq_def]
    split <;> simp_all

theorem dropWhile_cons_neg {p : Char → Bool} {c : Char} (t : List Char)
    (h : p c = false) : (c :: t).dropWhile p = c :: t := by
  simp [List.dropWhile, h]

theorem jsTrim_wrap {c d : Char} (m : List Char)
    (hc : isJsWs c = false) (hd : isJsWs d = false) :
    jsTrim (c :: (m ++ [d])) = c :: (m ++ [d]) := by
  unfold jsTrim
  rw [dropWhile_cons_neg _ hc]
  rw [show (c :: (m ++ [d])).reverse = d :: (m.reverse ++ [c]) from by simp]
  rw [dropWhile_cons_neg _ hd]
  simp

theorem stripBOM_cons_ne {c : Char} (t : List Char) (h : c ≠ '\uFEFF') :
    stripBOM (c :: t) = c :: t := by
  simp [stripBOM, h]

theorem stripJsScheme_no_match {c : Char} (t : List Char)
    (h1 : isJsWs c = false) (h2 : charEqCI 'j' c = false) :
    stripJsScheme (c :: t) = c :: t := by
  unfold stripJsScheme
  rw [show List.dropWhile isJsWs (c :: t) = c :: t from dropWhile_cons_neg t h1]
  rw [show eatCI "javascript:".data (c :: t) = none from by
    rw [show "javascript:".data = 'j' :: "avascript:".data from rfl]
    simp [eatCI, h2]]

theorem splitTail1_append (b : List Char) :
    splitTail1 (b ++ "\x7D)();".data) = some b := by
  have h1 : endsWithL "\x7D)();".data (b ++ "\x7D)();".data) = true := by
    unfold endsWithL
    rw [show (b ++ "\x7D)();".data).length - ("\x7D)();".data).length = b.length from by simp]
    simp [List.drop_left]
  unfold splitTail1
  rw [h1]
  simp only [if_true]
  rw [show (b ++ "\x7D)();".data).length - 5 = b.length from by simp]
  rw [List.take_left]

theorem splitTail2_append (b : List Char) :
    splitTail2 (b ++ "\x7D)();".data) = some b := by
  have hb1 : b ++ "\x7D)();".data = (b ++ "\x7D)()".data) ++ [';'] := by simp
  have h1 : endsWithL ";".data (b ++ "\x7D)();".data) = true := by
    unfold endsWithL
    rw [hb1]
    rw [show ((b ++ "\x7D)()".data) ++ [';']).length - (";".data).length =
      (b ++ "\x7D)()".data).length from by simp]
    simp [List.drop_left]
  unfold splitTail2
  rw [h1]
  simp only [if_true]
  rw [show (b ++ "\x7D)();".data).length - 1 = (b ++ "\x7D)()".data).length from by simp]
  rw [hb1, List.take_left]
  have hb2 : b ++ "\x7D)()".data = (b ++ "\x7D)".data) ++ "()".data := by simp
  have h2 : endsWithL "()".data (b ++ "\x7D)()".data) = true := by
    unfold endsWithL
    rw [hb2]
    rw [show ((b ++ "\x7D)".data) ++ "()".data).length - ("()".data).length =
      (b ++ "\x7D)".data).length from by simp]
    simp [List.drop_left]
  rw [h2]
  simp only [if_true]
  rw [show (b ++ "\x7D)()".data).length - 2 = (b ++ "\x7D)".data).length from by simp]
  rw [hb2, List.take_left]
  rw [show (b ++ "\x7D)".data).reverse = ')' :: '}' :: b.reverse from by simp]
  rw [dropWhile_cons_neg _ (by decide)]
  rw [show (')' :: '}' :: b.reverse).reverse = b ++ "\x7D)".data from by simp]
  have h3 : endsWithL "\x7D)".data (b ++ "\x7D)".data) = true := by
    unfold endsWithL
    rw [show (b ++ "\x7D)".data).length - ("\x7D)".data).length = b.length from by simp]
    simp [List.drop_left]
  rw [h3]
  simp only [if_true]
  rw [show (b ++ "\x7D)".data).length - 2 = b.length from by simp]
  rw [List.take_left]

end Build

namespace Build

/-- The normalization pipeline (BOM strip, CRLF normalization,
`javascript:` prefix strip, trim) is the identity on any CR-free text
that starts with `(` and ends with `;`. -/
theorem cleaned_id_paren (m : List Char) (hr : '\r' ∉ '(' :: (m ++ [';'])) :
    jsTrim (stripJsScheme (normalizeCRLF (stripBOM ('(' :: (m ++ [';']))))) =
      '(' :: (m ++ [';']) := by
  rw [show stripBOM ('(' :: (m ++ [';'])) = '(' :: (m ++ [';']) from rfl]
  rw [normalizeCRLF_eq_self hr]
  rw [show stripJsScheme ('(' :: (m ++ [';'])) = '(' :: (m ++ [';']) from rfl]
  rw [jsTrim_wrap _ (by decide) (by decide)]

theorem cleaned_id_shape1 (b : List Char) (hr : '\r' ∉ b) :
    jsTrim (stripJsScheme (normalizeCRLF (stripBOM
      ("(function()\x7B".data ++ b ++ "\x7D)();".data)))) =
      "(function()\x7B".data ++ b ++ "\x7D)();".data := by
  have hform : "(function()\x7B".data ++ b ++ "\x7D)();".data =
      '(' :: (("function()\x7B".data ++ b ++ "\x7D)()".data) ++ [';']) := by simp
  rw [hform, cleaned_id_paren]
  intro hm
  simp only [List.mem_cons, List.mem_append] at hm
  rcases hm with h | (h | h) | h <;> first
    | exact absurd h (by decide)
    | exact hr (by simpa using h)

theorem cleaned_id_shape2 (b : List Char) (hr : '\r' ∉ b) :
    jsTrim (stripJsScheme (normalizeCRLF (stripBOM
      ("(async function()\x7B".data ++ b ++ "\x7D)();".data)))) =
      "(async function()\x7B".data ++ b ++ "\x7D)();".data := by
  have hform : "(async function()\x7B".data ++ b ++ "\x7D)();".data =
      '(' :: (("async function()\x7B".data ++ b ++ "\x7D)()".data) ++ [';']) := by simp
  rw [hform, cleaned_id_paren]
  intro hm
  simp only [List.mem_cons, List.mem_append] at hm
  rcases hm with h | (h | h) | h <;> first
    | exact absurd h (by decide)
    | exact hr (by simpa using h)

theorem cleaned_id_shape3 (b : List Char) (hr : '\r' ∉ b) :
    jsTrim (stripJsScheme (normalizeCRLF (stripBOM
      ("(()=>\x7B".data ++ b ++ "\x7D)();".data)))) =
      "(()=>\x7B".data ++ b ++ "\x7D)();".data := by
  have hform : "(()=>\x7B".data ++ b ++ "\x7D)();".data =
      '(' :: (("()=>\x7B".data ++ b ++ "\x7D)()".data) ++ [';']) := by simp
  rw [hform, cleaned_id_paren]
  intro hm
  simp only [List.mem_cons, List.mem_append] at hm
  rcases hm with h | (h | h) | h <;> first
    | exact absurd h (by decide)
    | exact hr (by simpa using h)

theorem cleaned_id_shape4 (b : List Char) (hr : '\r' ∉ b) :
    jsTrim (stripJsScheme (normalizeCRLF (stripBOM
      ("(async ()=>\x7B".data ++ b ++ "\x7D)();".data)))) =
      "(async ()=>\x7B".data ++ b ++ "\x7D)();".data := by
  have hform : "(async ()=>\x7B".data ++ b ++ "\x7D)();".data =
      '(' :: (("async ()=>\x7B".data ++ b ++ "\x7D)()".data) ++ [';']) := by simp
  rw [hform, cleaned_id_paren]
  intro hm
  simp only [List.mem_cons, List.mem_append] at hm
  rcases hm with h | (h | h) | h <;> first
    | exact absurd h (by decide)
    | exact hr (by simpa using h)

theorem matchIife1_canonical (b : List Char) :
    matchIife1 ("(function()\x7B".data ++ b ++ "\x7D)();".data) = some b := by
  show splitTail1 (b ++ "\x7D)();".data) = some b
  exact splitTail1_append b

theorem matchIife2_canonical (b : List Char) :
    matchIife2 ("(async function()\x7B".data ++ b ++ "\x7D)();".data) = some b := by
  show splitTail1 (b ++ "\x7D)();".data) = some b
  exact splitTail1_append b

theorem matchIife3_canonical (b : List Char) :
    matchIife3 ("(()=>\x7B".data ++ b ++ "\x7D)();".data) = some b := by
  show splitTail2 (b ++ "\x7D)();".data) = some b
  exact splitTail2_append b

theorem matchIife4_canonical (b : List Char) :
    matchIife4 ("(async ()=>\x7B".data ++ b ++ "\x7D)();".data) = some b := by
  show splitTail2 (b ++ "\x7D)();".data) = some b
  exact splitTail2_append b

theorem finalCode_shape1 (b : List Char) (hr : '\r' ∉ b) :
    bookmarkletFinalCode (some ("(function()\x7B".data ++ b ++ "\x7D)();".data)) true =
      "(function()\x7B".data ++ b ++ "\x7D)();".data := by
  have hu : iifeUnwrap ("(function()\x7B".data ++ b ++ "\x7D)();".data) = (b, .plain) := by
    unfold iifeUnwrap
    rw [matchIife1_canonical b]
  have hn : normalizeBookmarkletSource
      (some ("(function()\x7B".data ++ b ++ "\x7D)();".data)) true =
      ⟨b, true, .plain⟩ := by
    simp only [normalizeBookmarkletSource, cleaned_id_shape1 b hr, hu]
    rfl
  unfold bookmarkletFinalCode
  rw [hn]
  rfl

theorem finalCode_shape2 (b : List Char) (hr : '\r' ∉ b) :
    bookmarkletFinalCode (some ("(async function()\x7B".data ++ b ++ "\x7D)();".data)) true =
      "(async function()\x7B".data ++ b ++ "\x7D)();".data := by
  have hu : iifeUnwrap ("(async function()\x7B".data ++ b ++ "\x7D)();".data) = (b, .async) := by
    unfold iifeUnwrap
    rw [show matchIife1 ("(async function()\x7B".data ++ b ++ "\x7D)();".data) = none from rfl]
    rw [matchIife2_canonical b]
  have hn : normalizeBookmarkletSource
      (some ("(async function()\x7B".data ++ b ++ "\x7D)();".data)) true =
      ⟨b, true, .async⟩ := by
    simp only [normalizeBookmarkletSource, cleaned_id_shape2 b hr, hu]
    rfl
  unfold bookmarkletFinalCode
  rw [hn]
  rfl

theorem finalCode_shape3 (b : List Char) (hr : '\r' ∉ b) :
    bookmarkletFinalCode (some ("(()=>\x7B".data ++ b ++ "\x7D)();".data)) true =
      "(function()\x7B".data ++ b ++ "\x7D)();".data := by
  have hu : iifeUnwrap ("(()=>\x7B".data ++ b ++ "\x7D)();".data) = (b, .plain) := by
    unfold iifeUnwrap
    rw [show matchIife1 ("(()=>\x7B".data ++ b ++ "\x7D)();".data) = none from rfl]
    rw [show matchIife2 ("(()=>\x7B".data ++ b ++ "\x7D)();".data) = none from rfl]
    rw [matchIife3_canonical b]
  have hn : normalizeBookmarkletSource
      (some ("(()=>\x7B".data ++ b ++ "\x7D)();".data)) true =
      ⟨b, true, .plain⟩ := by
    simp only [normalizeBookmarkletSource, cleaned_id_shape3 b hr, hu]
    rfl
  unfold bookmarkletFinalCode
  rw [hn]
  rfl

theorem finalCode_shape4 (b : List Char) (hr : '\r' ∉ b) :
    bookmarkletFinalCode (some ("(async ()=>\x7B".data ++ b ++ "\x7D)();".data)) true =
      "(async function()\x7B".data ++ b ++ "\x7D)();".data := by
  have hu : iifeUnwrap ("(async ()=>\x7B".data ++ b ++ "\x7D)();".data) = (b, .async) := by
    unfold iifeUnwrap
    rw [show matchIife1 ("(async ()=>\x7B".data ++ b ++ "\x7D)();".data) = none from rfl]
    rw [show matchIife2 ("(async ()=>\x7B".data ++ b ++ "\x7D)();".data) = none from rfl]
    rw [show matchIife3 ("(async ()=>\x7B".data ++ b ++ "\x7D)();".data) = none from rfl]
    rw [matchIife4_canonical b]
  have hn : normalizeBookmarkletSource
      (some ("(async ()=>\x7B".data ++ b ++ "\x7D)();".data)) true =
      ⟨b, true, .async⟩ := by
    simp only [normalizeBookmarkletSource, cleaned_id_shape4 b hr, hu]
    rfl
  unfold bookmarkletFinalCode
  rw [hn]
  rfl

end Build

namespace Build

/-- C1: a source that is already one of the four accepted IIFE shapes
(canonically spelled, CR-free body) is unwrapped and re-wrapped exactly
once by the encoder with wrap requested: the final code is a single
wrapper around the extracted body — identical to the input for the
function-keyword shapes — and on the spec's concrete example the
produced `javascript:` URI percent-decodes back to exactly
`(function(){return 1;})();`. -/
theorem bookmarklet_no_double_wrap :
    (∀ b : List Char, '\r' ∉ b →
      bookmarkletFinalCode (some ("(function()\x7B".data ++ b ++ "\x7D)();".data)) true =
        "(function()\x7B".data ++ b ++ "\x7D)();".data) ∧
    (∀ b : List Char, '\r' ∉ b →
      bookmarkletFinalCode (some ("(async function()\x7B".data ++ b ++ "\x7D)();".data)) true =
        "(async function()\x7B".data ++ b ++ "\x7D)();".data) ∧
    (∀ b : List Char, '\r' ∉ b →
      bookmarkletFinalCode (some ("(()=>\x7B".data ++ b ++ "\x7D)();".data)) true =
        "(function()\x7B".data ++ b ++ "\x7D)();".data) ∧
    (∀ b : List Char, '\r' ∉ b →
      bookmarkletFinalCode (some ("(async ()=>\x7B".data ++ b ++ "\x7D)();".data)) true =
        "(async function()\x7B".data ++ b ++ "\x7D)();".data) ∧
    toBookmarkletURL (some "(function()\x7Breturn 1;\x7D)();".data) true =
      "javascript:(function()%7Breturn%201;%7D)();".data ∧
    percentDecode "(function()%7Breturn%201;%7D)();".data =
      "(function()\x7Breturn 1;\x7D)();".data :=
  ⟨finalCode_shape1, finalCode_shape2, finalCode_shape3, finalCode_shape4,
    by decide, by decide⟩

/-- Instance of `bookmarklet_no_double_wrap` at the spec's example
body. -/
theorem bookmarklet_no_double_wrap_witness :
    ('\r' ∉ "return 1;".data) ∧
      bookmarkletFinalCode (some "(function()\x7Breturn 1;\x7D)();".data) true =
        "(function()\x7Breturn 1;\x7D)();".data :=
  ⟨by decide, bookmarklet_no_double_wrap.1 "return 1;".data (by decide)⟩

/-- C8: an async self-invoking wrapper (function-keyword or arrow
form, canonically spelled, CR-free body) is re-encoded as an async
wrapper `(async function(){...})();` — never as a plain
`(function(){...})();`, from which it differs at the second character —
and on the spec's concrete example the produced URI percent-decodes to
the async-wrapped form. -/
theorem bookmarklet_async_preserved :
    (∀ b : List Char, '\r' ∉ b →
      bookmarkletFinalCode (some ("(async function()\x7B".data ++ b ++ "\x7D)();".data)) true =
        "(async function()\x7B".data ++ b ++ "\x7D)();".data) ∧
    (∀ b : List Char, '\r' ∉ b →
      bookmarkletFinalCode (some ("(async ()=>\x7B".data ++ b ++ "\x7D)();".data)) true =
        "(async function()\x7B".data ++ b ++ "\x7D)();".data) ∧
    (∀ b b' : List Char,
      "(async function()\x7B".data ++ b ++ "\x7D)();".data ≠
        "(function()\x7B".data ++ b' ++ "\x7D)();".data) ∧
    toBookmarkletURL (some "(async function()\x7Bawait x();\x7D)();".data) true =
      "javascript:(async%20function()%7Bawait%20x();%7D)();".data ∧
    percentDecode "(async%20function()%7Bawait%20x();%7D)();".data =
      "(async function()\x7Bawait x();\x7D)();".data := by
  refine ⟨finalCode_shape2, finalCode_shape4, ?_, by decide, by decide⟩
  intro b b' h
  have h' : '(' :: 'a' :: (("sync function()\x7B".data ++ b) ++ "\x7D)();".data) =
      '(' :: 'f' :: (("unction()\x7B".data ++ b') ++ "\x7D)();".data) := h
  simp at h'

/-- Instance of `bookmarklet_async_preserved` at the spec's example
body. -/
theorem bookmarklet_async_preserved_witness :
    ('\r' ∉ "await x();".data) ∧
      bookmarkletFinalCode (some "(async function()\x7Bawait x();\x7D)();".data) true =
        "(async function()\x7Bawait x();\x7D)();".data :=
  ⟨by decide, bookmarklet_async_preserved.1 "await x();".data (by decide)⟩

end Build

namespace Build

theorem hexDigit_mem (n : Nat) : hexDigit n ∈ hexDigits := by
  unfold hexDigit
  rw [List.getD_eq_getElem?_getD]
  cases h : hexDigits[n]? with
  | none => simp [Option.getD]; decide
  | some x =>
    simp only [Option.getD]
    exact List.getElem?_mem h

theorem mem_pctEncode {x : Char} {b : Nat} (h : x ∈ pctEncode b) :
    x = '%' ∨ x ∈ hexDigits := by
  unfold pctEncode at h
  simp only [List.mem_cons, List.not_mem_nil, or_false] at h
  rcases h with rfl | rfl | rfl
  · exact Or.inl rfl
  · exact Or.inr (hexDigit_mem _)
  · exact Or.inr (hexDigit_mem _)

theorem mem_encodeURIChar {x c : Char} (h : x ∈ encodeURIChar c) :
    (x = c ∧ isURIUnescaped c = true) ∨ x = '%' ∨ x ∈ hexDigits := by
  unfold encodeURIChar at h
  by_cases hu : isURIUnescaped c
  · rw [if_pos hu] at h
    rcases List.mem_singleton.1 h with rfl
    exact Or.inl ⟨rfl, hu⟩
  · rw [if_neg hu] at h
    rcases List.mem_flatten.1 h with ⟨u, hu1, hu2⟩
    rcases List.mem_map.1 hu1 with ⟨b, _, rfl⟩
    exact Or.inr (mem_pctEncode hu2)

theorem mem_encodeURIL {x : Char} {l : List Char} (h : x ∈ encodeURIL l) :
    ∃ c ∈ l, x ∈ encodeURIChar c := by
  unfold encodeURIL at h
  rcases List.mem_flatten.1 h with ⟨u, hu1, hu2⟩
  rcases List.mem_map.1 hu1 with ⟨c, hc, rfl⟩
  exact ⟨c, hc, hu2⟩

/-- Characters `encodeURI` leaves unescaped are printable ASCII and
are none of quote, `<`, `>`. -/
theorem isURIUnescaped_safe {c : Char} (h : isURIUnescaped c = true) :
    32 < c.toNat ∧ c.toNat < 127 ∧ c ≠ '"' ∧ c ≠ '<' ∧ c ≠ '>' := by
  unfold isURIUnescaped at h
  simp only [Bool.or_eq_true, decide_eq_true_eq, Bool.and_eq_true] at h
  have hn : 32 < c.toNat ∧ c.toNat < 127 ∧ c.toNat ≠ 34 ∧ c.toNat ≠ 60 ∧ c.toNat ≠ 62 := by
    rcases h with ((⟨h1, h2⟩ | ⟨h1, h2⟩) | ⟨h1, h2⟩) | h
    · have g1 : 65 ≤ c.toNat := h1
      have g2 : c.toNat ≤ 90 := h2
      omega
    · have g1 : 97 ≤ c.toNat := h1
      have g2 : c.toNat ≤ 122 := h2
      omega
    · have g1 : 48 ≤ c.toNat := h1
      have g2 : c.toNat ≤ 57 := h2
      omega
    · have hmem : c ∈ [';', ',', '/', '?', ':', '@', '&', '=', '+', '$', '-', '_', '.', '!',
          '~', '*', '\'', '(', ')', '#'] := by
        simpa using h
      fin_cases hmem <;> decide
  obtain ⟨a1, a2, a34, a60, a62⟩ := hn
  refine ⟨a1, a2, ?_, ?_, ?_⟩
  · intro hc; exact a34 (by rw [hc]; rfl)
  · intro hc; exact a60 (by rw [hc]; rfl)
  · intro hc; exact a62 (by rw [hc]; rfl)

end Build

namespace Build

/-- C10: every character of an encoded bookmarklet URI is printable
ASCII other than double quote, `<`, `>` and space (controls and DEL
are percent-encoded), so the URI can sit verbatim inside a
double-quoted HTML attribute without terminating it or opening
markup. -/
theorem toBookmarkletURL_attr_safe :
    ∀ (s : List Char) (w : Bool) (c : Char), c ∈ toBookmarkletURL (some s) w →
      c ≠ '"' ∧ c ≠ '<' ∧ c ≠ '>' ∧ c ≠ ' ' ∧ 32 < c.toNat ∧ c.toNat < 127 := by
  intro s w c hc
  have main : 32 < c.toNat ∧ c.toNat < 127 ∧ c ≠ '"' ∧ c ≠ '<' ∧ c ≠ '>' := by
    unfold toBookmarkletURL at hc
    rcases List.mem_append.1 hc with h | h
    · have hall : ∀ x ∈ "javascript:".data,
          32 < x.toNat ∧ x.toNat < 127 ∧ x ≠ '"' ∧ x ≠ '<' ∧ x ≠ '>' := by decide
      exact hall c h
    · rcases mem_replaceAllChar h with h1 | ⟨h1, _⟩
      · have hall : ∀ x ∈ "%23".data,
            32 < x.toNat ∧ x.toNat < 127 ∧ x ≠ '"' ∧ x ≠ '<' ∧ x ≠ '>' := by decide
        exact hall c h1
      · rcases mem_encodeURIL h1 with ⟨d, _, hcd⟩
        rcases mem_encodeURIChar hcd with ⟨rfl, hu⟩ | rfl | hhex
        · exact isURIUnescaped_safe hu
        · exact ⟨by decide, by decide, by decide, by decide, by decide⟩
        · have hall : ∀ x ∈ hexDigits,
              32 < x.toNat ∧ x.toNat < 127 ∧ x ≠ '"' ∧ x ≠ '<' ∧ x ≠ '>' := by decide
          exact hall c hhex
  obtain ⟨a1, a2, aq, alt, agt⟩ := main
  refine ⟨aq, alt, agt, ?_, a1, a2⟩
  intro hsp
  rw [hsp] at a1
  exact absurd a1 (by decide)

/-- Instance of `toBookmarkletURL_attr_safe` at a concrete input. -/
theorem toBookmarkletURL_attr_safe_witness :
    'j' ∈ toBookmarkletURL (some "a b".data) true ∧
      ('j' ≠ '"' ∧ 'j' ≠ '<' ∧ 'j' ≠ '>' ∧ 'j' ≠ ' ' ∧
        32 < 'j'.toNat ∧ 'j'.toNat < 127) :=
  ⟨by decide, toBookmarkletURL_attr_safe "a b".data true 'j' (by decide)⟩

end Build

namespace Build

theorem mem_normalizeCRLF {c : Char} (hc : c ≠ '\r') :
    ∀ l : List Char, c ∈ l → c ∈ normalizeCRLF l := by
  intro l hl
  induction l using normalizeCRLF.induct
  case case1 => cases hl
  case case2 t ih =>
    rw [show normalizeCRLF ('\r' :: '\n' :: t) = '\n' :: normalizeCRLF t from rfl]
    rcases List.mem_cons.1 hl with h | h
    · exact absurd h hc
    rcases List.mem_cons.1 h with h2 | h2
    · exact h2 ▸ List.mem_cons_self _ _
    · exact List.mem_cons_of_mem _ (ih h2)
  case case3 t hne ih =>
    rw [normalizeCRLF.eq_3 t hne]
    rcases List.mem_cons.1 hl with h | h
    · exact absurd h hc
    · exact List.mem_cons_of_mem _ (ih h)
  case case4 c2 t hboth hne ih =>
    rw [normalizeCRLF.eq_4 c2 t hboth hne]
    rcases List.mem_cons.1 hl with h | h
    · exact h ▸ List.mem_cons_self _ _
    · exact List.mem_cons_of_mem _ (ih h)

theorem mem_dropWhile_of_not {c : Char} {p : Char → Bool} {l : List Char}
    (hl : c ∈ l) (hp : p c = false) : c ∈ l.dropWhile p := by
  have hsplit := List.takeWhile_append_dropWhile p l
  rw [← hsplit] at hl
  rcases List.mem_append.1 hl with h | h
  · have := List.mem_takeWhile_imp h
    rw [hp] at this
    cases this
  · exact h

theorem mem_stripBOM {c : Char} {l : List Char} (hl : c ∈ l)
    (hc : c ≠ '\uFEFF') : c ∈ stripBOM l := by
  cases l with
  | nil => cases hl
  | cons x t =>
    rw [show stripBOM (x :: t) = if x = '\uFEFF' then t else x :: t from rfl]
    by_cases hx : x = '\uFEFF'
    · rw [if_pos hx]
      rcases List.mem_cons.1 hl with h | h
      · exact absurd (h.trans hx) hc
      · exact h
    · rwa [if_neg hx]

theorem eatCI_decomp :
    ∀ (pat l rest : List Char), eatCI pat l = some rest →
      ∃ pre, l = pre ++ rest ∧ ∀ x ∈ pre, ∃ p ∈ pat, charEqCI p x = true := by
  intro pat
  induction pat with
  | nil =>
    intro l rest h
    refine ⟨[], ?_, by simp⟩
    simpa [eatCI] using Option.some.inj h
  | cons p ps ih =>
    intro l rest h
    cases l with
    | nil => simp [eatCI] at h
    | cons x xs =>
      unfold eatCI at h
      by_cases hx : charEqCI p x
      · rw [if_pos hx] at h
        rcases ih xs rest h with ⟨pre, hpre, hall⟩
        refine ⟨x :: pre, by simp [hpre], ?_⟩
        intro y hy
        rcases List.mem_cons.1 hy with rfl | hy2
        · exact ⟨p, List.mem_cons_self _ _, hx⟩
        · rcases hall y hy2 with ⟨q, hq1, hq2⟩
          exact ⟨q, List.mem_cons_of_mem _ hq1, hq2⟩
      · rw [if_neg hx] at h
        cases h

theorem mem_stripJsScheme {c : Char} {l : List Char} (hl : c ∈ l)
    (hws : isJsWs c = false)
    (hci : ∀ p ∈ "javascript:".data, charEqCI p c = false) :
    c ∈ stripJsScheme l := by
  unfold stripJsScheme
  cases heat : eatCI "javascript:".data (l.dropWhile isJsWs) with
  | none => exact hl
  | some rest =>
    rcases eatCI_decomp _ _ _ heat with ⟨pre, hpre, hall⟩
    have h1 : c ∈ l.dropWhile isJsWs := mem_dropWhile_of_not hl hws
    rw [hpre] at h1
    rcases List.mem_append.1 h1 with h2 | h2
    · rcases hall c h2 with ⟨p, hp1, hp2⟩
      rw [hci p hp1] at hp2
      cases hp2
    · exact mem_dropWhile_of_not h2 hws

theorem mem_jsTrim {c : Char} {l : List Char} (hl : c ∈ l)
    (hws : isJsWs c = false) : c ∈ jsTrim l := by
  unfold jsTrim
  rw [List.mem_reverse]
  apply mem_dropWhile_of_not _ hws
  rw [List.mem_reverse]
  exact mem_dropWhile_of_not hl hws

end Build

namespace Build

theorem charEqCI_refl (c : Char) : charEqCI c c = true := by
  simp [charEqCI]

theorem not_mem_of_ci {c : Char}
    (hci : ∀ p ∈ iifePatChars, charEqCI p c = false) {s : List Char}
    (hsub : ∀ x ∈ s, x ∈ iifePatChars) : c ∉ s := by
  intro hc
  have h1 := hci c (hsub c hc)
  rw [charEqCI_refl] at h1
  cases h1

theorem mem_eatCI_rest {pat l rest : List Char} (he : eatCI pat l = some rest)
    {c : Char} (hc : c ∈ l)
    (hci : ∀ p ∈ pat, charEqCI p c = false) : c ∈ rest := by
  rcases eatCI_decomp _ _ _ he with ⟨pre, rfl, hall⟩
  rcases List.mem_append.1 hc with h | h
  · rcases hall c h with ⟨p, hp1, hp2⟩
    rw [hci p hp1] at hp2
    cases hp2
  · exact h

theorem endsWithL_decomp {suf l : List Char} (h : endsWithL suf l = true) :
    l = l.take (l.length - suf.length) ++ suf := by
  unfold endsWithL at h
  have h2 := of_decide_eq_true h
  conv_lhs => rw [← List.take_append_drop (l.length - suf.length) l]
  rw [h2]

theorem splitTail1_decomp {l b : List Char} (h : splitTail1 l = some b) :
    ∃ suf, (suf = "\x7D)();".data ∨ suf = "\x7D)()".data) ∧ l = b ++ suf := by
  unfold splitTail1 at h
  by_cases h1 : endsWithL "\x7D)();".data l = true
  · rw [if_pos h1] at h
    rcases Option.some.inj h with rfl
    exact ⟨"\x7D)();".data, Or.inl rfl, by
      have := endsWithL_decomp h1
      simpa using this⟩
  · rw [if_neg h1] at h
    by_cases h2 : endsWithL "\x7D)()".data l = true
    · rw [if_pos h2] at h
      rcases Option.some.inj h with rfl
      exact ⟨"\x7D)()".data, Or.inr rfl, by
        have := endsWithL_decomp h2
        simpa using this⟩
    · rw [if_neg h2] at h
      cases h

theorem dropWhileRight_decomp (p : Char → Bool) (l : List Char) :
    ∃ w, l = ((l.reverse.dropWhile p)).reverse ++ w ∧ ∀ x ∈ w, p x = true := by
  refine ⟨(l.reverse.takeWhile p).reverse, ?_, ?_⟩
  · conv_lhs => rw [← List.reverse_reverse l,
      ← List.takeWhile_append_dropWhile p l.reverse]
    rw [List.reverse_append]
  · intro x hx
    rw [List.mem_reverse] at hx
    exact List.mem_takeWhile_imp hx

theorem splitTail2_decomp {l b : List Char} (h : splitTail2 l = some b) :
    ∃ w suf, (∀ x ∈ w, isJsWs x = true) ∧ (suf = [';'] ∨ suf = []) ∧
      l = b ++ "\x7D)".data ++ w ++ "()".data ++ suf := by
  unfold splitTail2 at h
  by_cases hsemi : endsWithL ";".data l = true
  · rw [if_pos hsemi] at h
    have hl : l = l.take (l.length - 1) ++ [';'] := by
      have := endsWithL_decomp hsemi
      simpa using this
    set l1 := l.take (l.length - 1) with hl1
    by_cases h2 : endsWithL "()".data l1 = true
    · rw [if_pos h2] at h
      have hl12 : l1 = l1.take (l1.length - 2) ++ "()".data := by
        have := endsWithL_decomp h2
        simpa using this
      rcases dropWhileRight_decomp isJsWs (l1.take (l1.length - 2)) with ⟨w, hw, hwall⟩
      set l2 := ((l1.take (l1.length - 2)).reverse.dropWhile isJsWs).reverse with hl2
      by_cases h3 : endsWithL "\x7D)".data l2 = true
      · rw [if_pos h3] at h
        rcases Option.some.inj h with rfl
        have hl23 : l2 = l2.take (l2.length - 2) ++ "\x7D)".data := by
          have := endsWithL_decomp h3
          simpa using this
        refine ⟨w, [';'], hwall, Or.inl rfl, ?_⟩
        conv_lhs => rw [hl, hl12, hw, hl23]
      · rw [if_neg h3] at h
        cases h
    · rw [if_neg h2] at h
      cases h
  · rw [if_neg hsemi] at h
    by_cases h2 : endsWithL "()".data l = true
    · rw [if_pos h2] at h
      have hl12 : l = l.take (l.length - 2) ++ "()".data := by
        have := endsWithL_decomp h2
        simpa using this
      rcases dropWhileRight_decomp isJsWs (l.take (l.length - 2)) with ⟨w, hw, hwall⟩
      set l2 := ((l.take (l.length - 2)).reverse.dropWhile isJsWs).reverse with hl2
      by_cases h3 : endsWithL "\x7D)".data l2 = true
      · rw [if_pos h3] at h
        rcases Option.some.inj h with rfl
        have hl23 : l2 = l2.take (l2.length - 2) ++ "\x7D)".data := by
          have := endsWithL_decomp h3
          simpa using this
        refine ⟨w, [], hwall, Or.inr rfl, ?_⟩
        conv_lhs => rw [hl12, hw, hl23]
        simp
      · rw [if_neg h3] at h
        cases h
    · rw [if_neg h2] at h
      cases h

end Build

namespace Build

theorem mem_body_splitTail1 {l b : List Char} (h : splitTail1 l = some b)
    {c : Char} (hc : c ∈ l)
    (hci : ∀ p ∈ iifePatChars, charEqCI p c = false) : c ∈ b := by
  rcases splitTail1_decomp h with ⟨suf, hsuf, rfl⟩
  rcases List.mem_append.1 hc with h1 | h1
  · exact h1
  · exfalso
    rcases hsuf with rfl | rfl
    · exact not_mem_of_ci hci (by decide) h1
    · exact not_mem_of_ci hci (by decide) h1

theorem mem_body_splitTail2 {l b : List Char} (h : splitTail2 l = some b)
    {c : Char} (hc : c ∈ l) (hws : isJsWs c = false)
    (hci : ∀ p ∈ iifePatChars, charEqCI p c = false) : c ∈ b := by
  rcases splitTail2_decomp h with ⟨w, suf, hwall, hsuf, rfl⟩
  rcases List.mem_append.1 hc with h1 | h1
  · rcases List.mem_append.1 h1 with h2 | h2
    · rcases List.mem_append.1 h2 with h3 | h3
      · rcases List.mem_append.1 h3 with h4 | h4
        · exact h4
        · exact absurd h4 (not_mem_of_ci hci (by decide))
      · rw [hwall c h3] at hws
        cases hws
    · exact absurd h2 (not_mem_of_ci hci (by decide))
  · exfalso
    rcases hsuf with rfl | rfl
    · exact not_mem_of_ci hci (by decide) h1
    · cases h1

theorem mem_body_matchIife1 {l b : List Char} (h : matchIife1 l = some b)
    {c : Char} (hc : c ∈ l) (hws : isJsWs c = false)
    (hci : ∀ p ∈ iifePatChars, charEqCI p c = false) : c ∈ b := by
  unfold matchIife1 at h
  cases e1 : eatCI "(function".data l with
  | none => rw [e1] at h; cases h
  | some r1 =>
    rw [e1] at h
    dsimp only at h
    have hc1 : c ∈ r1 := mem_eatCI_rest e1 hc
      (fun p hp => hci p ((by decide : ∀ x ∈ "(function".data, x ∈ iifePatChars) p hp))
    cases e2 : eatCI "()".data (eatWs r1) with
    | none => rw [e2] at h; cases h
    | some r2 =>
      rw [e2] at h
      dsimp only at h
      have hc2 : c ∈ r2 := mem_eatCI_rest e2 (mem_dropWhile_of_not hc1 hws)
        (fun p hp => hci p ((by decide : ∀ x ∈ "()".data, x ∈ iifePatChars) p hp))
      cases e3 : eatCI "\x7B".data (eatWs r2) with
      | none => rw [e3] at h; cases h
      | some r3 =>
        rw [e3] at h
        dsimp only at h
        have hc3 : c ∈ r3 := mem_eatCI_rest e3 (mem_dropWhile_of_not hc2 hws)
          (fun p hp => hci p ((by decide : ∀ x ∈ "\x7B".data, x ∈ iifePatChars) p hp))
        exact mem_body_splitTail1 h hc3 hci

theorem mem_body_matchIife2 {l b : List Char} (h : matchIife2 l = some b)
    {c : Char} (hc : c ∈ l) (hws : isJsWs c = false)
    (hci : ∀ p ∈ iifePatChars, charEqCI p c = false) : c ∈ b := by
  unfold matchIife2 at h
  cases e0 : eatCI "(".data l with
  | none => rw [e0] at h; cases h
  | some r0 =>
    rw [e0] at h
    dsimp only at h
    have hc0 : c ∈ r0 := mem_eatCI_rest e0 hc
      (fun p hp => hci p ((by decide : ∀ x ∈ "(".data, x ∈ iifePatChars) p hp))
    cases e1 : eatCI "async".data (eatWs r0) with
    | none => rw [e1] at h; cases h
    | some r1 =>
      rw [e1] at h
      dsimp only at h
      have hc1 : c ∈ r1 := mem_eatCI_rest e1 (mem_dropWhile_of_not hc0 hws)
        (fun p hp => hci p ((by decide : ∀ x ∈ "async".data, x ∈ iifePatChars) p hp))
      cases e2 : eatCI "function".data (eatWs r1) with
      | none => rw [e2] at h; cases h
      | some r2 =>
        rw [e2] at h
        dsimp only at h
        have hc2 : c ∈ r2 := mem_eatCI_rest e2 (mem_dropWhile_of_not hc1 hws)
          (fun p hp => hci p ((by decide : ∀ x ∈ "function".data, x ∈ iifePatChars) p hp))
        cases e3 : eatCI "()".data (eatWs r2) with
        | none => rw [e3] at h; cases h
        | some r3 =>
          rw [e3] at h
          dsimp only at h
          have hc3 : c ∈ r3 := mem_eatCI_rest e3 (mem_dropWhile_of_not hc2 hws)
            (fun p hp => hci p ((by decide : ∀ x ∈ "()".data, x ∈ iifePatChars) p hp))
          cases e4 : eatCI "\x7B".data (eatWs r3) with
          | none => rw [e4] at h; cases h
          | some r4 =>
            rw [e4] at h
            dsimp only at h
            have hc4 : c ∈ r4 := mem_eatCI_rest e4 (mem_dropWhile_of_not hc3 hws)
              (fun p hp => hci p ((by decide : ∀ x ∈ "\x7B".data, x ∈ iifePatChars) p hp))
            exact mem_body_splitTail1 h hc4 hci

theorem mem_body_matchIife3 {l b : List Char} (h : matchIife3 l = some b)
    {c : Char} (hc : c ∈ l) (hws : isJsWs c = false)
    (hci : ∀ p ∈ iifePatChars, charEqCI p c = false) : c ∈ b := by
  unfold matchIife3 at h
  cases e0 : eatCI "(".data l with
  | none => rw [e0] at h; cases h
  | some r0 =>
    rw [e0] at h
    dsimp only at h
    have hc0 : c ∈ r0 := mem_eatCI_rest e0 hc
      (fun p hp => hci p ((by decide : ∀ x ∈ "(".data, x ∈ iifePatChars) p hp))
    cases e1 : eatCI "(".data (eatWs r0) with
    | none => rw [e1] at h; cases h
    | some r1 =>
      rw [e1] at h
      dsimp only at h
      have hc1 : c ∈ r1 := mem_eatCI_rest e1 (mem_dropWhile_of_not hc0 hws)
        (fun p hp => hci p ((by decide : ∀ x ∈ "(".data, x ∈ iifePatChars) p hp))
      cases e2 : eatCI ")".data (eatWs r1) with
      | none => rw [e2] at h; cases h
      | some r2 =>
        rw [e2] at h
        dsimp only at h
        have hc2 : c ∈ r2 := mem_eatCI_rest e2 (mem_dropWhile_of_not hc1 hws)
          (fun p hp => hci p ((by decide : ∀ x ∈ ")".data, x ∈ iifePatChars) p hp))
        cases e3 : eatCI "=>".data (eatWs r2) with
        | none => rw [e3] at h; cases h
        | some r3 =>
          rw [e3] at h
          dsimp only at h
          have hc3 : c ∈ r3 := mem_eatCI_rest e3 (mem_dropWhile_of_not hc2 hws)
            (fun p hp => hci p ((by decide : ∀ x ∈ "=>".data, x ∈ iifePatChars) p hp))
          cases e4 : eatCI "\x7B".data (eatWs r3) with
          | none => rw [e4] at h; cases h
          | some r4 =>
            rw [e4] at h
            dsimp only at h
            have hc4 : c ∈ r4 := mem_eatCI_rest e4 (mem_dropWhile_of_not hc3 hws)
              (fun p hp => hci p ((by decide : ∀ x ∈ "\x7B".data, x ∈ iifePatChars) p hp))
            exact mem_body_splitTail2 h hc4 hws hci

theorem mem_body_matchIife4 {l b : List Char} (h : matchIife4 l = some b)
    {c : Char} (hc : c ∈ l) (hws : isJsWs c = false)
    (hci : ∀ p ∈ iifePatChars, charEqCI p c = false) : c ∈ b := by
  unfold matchIife4 at h
  cases e0 : eatCI "(".data l with
  | none => rw [e0] at h; cases h
  | some r0 =>
    rw [e0] at h
    dsimp only at h
    have hc0 : c ∈ r0 := mem_eatCI_rest e0 hc
      (fun p hp => hci p ((by decide : ∀ x ∈ "(".data, x ∈ iifePatChars) p hp))
    cases e1 : eatCI "async".data (eatWs r0) with
    | none => rw [e1] at h; cases h
    | some r1 =>
      rw [e1] at h
      dsimp only at h
      have hc1 : c ∈ r1 := mem_eatCI_rest e1 (mem_dropWhile_of_not hc0 hws)
        (fun p hp => hci p ((by decide : ∀ x ∈ "async".data, x ∈ iifePatChars) p hp))
      cases e2 : eatCI "(".data (eatWs r1) with
      | none => rw [e2] at h; cases h
      | some r2 =>
        rw [e2] at h
        dsimp only at h
        have hc2 : c ∈ r2 := mem_eatCI_rest e2 (mem_dropWhile_of_not hc1 hws)
          (fun p hp => hci p ((by decide : ∀ x ∈ "(".data, x ∈ iifePatChars) p hp))
        cases e3 : eatCI ")".data (eatWs r2) with
        | none => rw [e3] at h; cases h
        | some r3 =>
          rw [e3] at h
          dsimp only at h
          have hc3 : c ∈ r3 := mem_eatCI_rest e3 (mem_dropWhile_of_not hc2 hws)
            (fun p hp => hci p ((by decide : ∀ x ∈ ")".data, x ∈ iifePatChars) p hp))
          cases e4 : eatCI "=>".data (eatWs r3) with
          | none => rw [e4] at h; cases h
          | some r4 =>
            rw [e4] at h
            dsimp only at h
            have hc4 : c ∈ r4 := mem_eatCI_rest e4 (mem_dropWhile_of_not hc3 hws)
              (fun p hp => hci p ((by decide : ∀ x ∈ "=>".data, x ∈ iifePatChars) p hp))
            cases e5 : eatCI "\x7B".data (eatWs r4) with
            | none => rw [e5] at h; cases h
            | some r5 =>
              rw [e5] at h
              dsimp only at h
              have hc5 : c ∈ r5 := mem_eatCI_rest e5 (mem_dropWhile_of_not hc4 hws)
                (fun p hp => hci p ((by decide : ∀ x ∈ "\x7B".data, x ∈ iifePatChars) p hp))
              exact mem_body_splitTail2 h hc5 hws hci

theorem mem_iifeUnwrap {l : List Char} {c : Char} (hc : c ∈ l)
    (hws : isJsWs c = false)
    (hci : ∀ p ∈ iifePatChars, charEqCI p c = false) :
    c ∈ (iifeUnwrap l).1 := by
  unfold iifeUnwrap
  cases e1 : matchIife1 l with
  | some b => exact mem_body_matchIife1 e1 hc hws hci
  | none =>
    cases e2 : matchIife2 l with
    | some b => exact mem_body_matchIife2 e2 hc hws hci
    | none =>
      cases e3 : matchIife3 l with
      | some b => exact mem_body_matchIife3 e3 hc hws hci
      | none =>
        cases e4 : matchIife4 l with
        | some b => exact mem_body_matchIife4 e4 hc hws hci
        | none => exact hc

end Build

namespace Build

theorem mem_bookmarkletFinalCode {c : Char} (hws : isJsWs c = false)
    (hbom : c ≠ '\uFEFF') (hcr : c ≠ '\r')
    (hjs : ∀ p ∈ "javascript:".data, charEqCI p c = false)
    (hci : ∀ p ∈ iifePatChars, charEqCI p c = false) :
    ∀ (s : List Char) (w : Bool), c ∈ s → c ∈ bookmarkletFinalCode (some s) w := by
  intro s w hcs
  have hclean : c ∈ jsTrim (stripJsScheme (normalizeCRLF (stripBOM s))) :=
    mem_jsTrim (mem_stripJsScheme (mem_normalizeCRLF hcr _ (mem_stripBOM hcs hbom)) hws hjs) hws
  cases w with
  | false =>
    have hn : normalizeBookmarkletSource (some s) false =
        ⟨jsTrim (stripJsScheme (normalizeCRLF (stripBOM s))), false, .noneW⟩ := by
      simp [normalizeBookmarkletSource]
    unfold bookmarkletFinalCode
    rw [hn]
    exact hclean
  | true =>
    have hb : c ∈ (iifeUnwrap (jsTrim (stripJsScheme (normalizeCRLF (stripBOM s))))).1 :=
      mem_iifeUnwrap hclean hws hci
    cases hiu : iifeUnwrap (jsTrim (stripJsScheme (normalizeCRLF (stripBOM s)))) with
    | mk body t =>
      rw [hiu] at hb
      dsimp only at hb
      have hn : normalizeBookmarkletSource (some s) true = ⟨body, true, t⟩ := by
        simp only [normalizeBookmarkletSource, hiu]
        rfl
      unfold bookmarkletFinalCode
      rw [hn]
      dsimp only
      by_cases ht : t = WrapperType.async
      · rw [if_pos ht]
        simp [hb]
      · rw [if_neg ht]
        simp [hb]

theorem hash_not_mem_encodeURIChar {c : Char} (hc : c ≠ '#') :
    '#' ∉ encodeURIChar c := by
  intro hm
  rcases mem_encodeURIChar hm with ⟨heq, _⟩ | heq | hhex
  · exact hc heq.symm
  · exact absurd heq (by decide)
  · exact absurd hhex (by decide)

theorem replace_hash_flatten (l : List Char) :
    replaceAllChar '#' "%23".data (encodeURIL l) =
      (l.map (fun c => if c = '#' then "%23".data else encodeURIChar c)).flatten := by
  induction l with
  | nil => rfl
  | cons c t ih =>
    have hstep : encodeURIL (c :: t) = encodeURIChar c ++ encodeURIL t := by
      simp [encodeURIL]
    rw [hstep, replaceAllChar_append, ih]
    by_cases hc : c = '#'
    · subst hc
      rw [show encodeURIChar '#' = ['#'] from by decide]
      simp [replaceAllChar]
    · rw [replaceAllChar_of_not_mem _ (hash_not_mem_encodeURIChar hc)]
      simp [hc]

/-- C2: each `#` of the final bookmarklet code is rendered as `%23` in
its place (the encoded tail is the per-character concatenation with
`#` mapped to `%23` and every other character `encodeURI`-encoded); no
raw `#` survives anywhere in the URI; and any `#` in the source text
yields a `%23` occurrence in the URI, for both wrap settings. -/
theorem toBookmarkletURL_hash_escaped :
    (∀ (s : List Char) (w : Bool),
      toBookmarkletURL (some s) w = "javascript:".data ++
        ((bookmarkletFinalCode (some s) w).map
          (fun c => if c = '#' then "%23".data else encodeURIChar c)).flatten) ∧
    (∀ (s : List Char) (w : Bool), '#' ∉ toBookmarkletURL (some s) w) ∧
    (∀ (s : List Char) (w : Bool), '#' ∈ s →
      List.IsInfix "%23".data (toBookmarkletURL (some s) w)) := by
  have hpos : ∀ (s : List Char) (w : Bool),
      toBookmarkletURL (some s) w = "javascript:".data ++
        ((bookmarkletFinalCode (some s) w).map
          (fun c => if c = '#' then "%23".data else encodeURIChar c)).flatten := by
    intro s w
    unfold toBookmarkletURL
    rw [replace_hash_flatten]
  refine ⟨hpos, ?_, ?_⟩
  · intro s w hmem
    unfold toBookmarkletURL at hmem
    rcases List.mem_append.1 hmem with h | h
    · exact absurd h (by decide)
    · rcases mem_replaceAllChar h with h1 | ⟨_, h2⟩
      · exact absurd h1 (by decide)
      · exact h2 rfl
  · intro s w hs
    have hfc : '#' ∈ bookmarkletFinalCode (some s) w :=
      mem_bookmarkletFinalCode (by decide) (by decide) (by decide)
        (by decide) (by decide) s w hs
    rcases List.append_of_mem hfc with ⟨u, v, huv⟩
    refine ⟨"javascript:".data ++
      ((u.map (fun c => if c = '#' then "%23".data else encodeURIChar c)).flatten),
      ((v.map (fun c => if c = '#' then "%23".data else encodeURIChar c)).flatten), ?_⟩
    rw [hpos s w, huv]
    simp

/-- Instance of `toBookmarkletURL_hash_escaped` at a concrete input
containing `#`. -/
theorem toBookmarkletURL_hash_escaped_witness :
    '#' ∈ "x='#'".data ∧
      List.IsInfix "%23".data (toBookmarkletURL (some "x='#'".data) false) :=
  ⟨by decide, toBookmarkletURL_hash_escaped.2.2 "x='#'".data false (by decide)⟩

end Build
